import Mathlib

/-!
Verification of the hiragana-dojo core: vocabulary analysis, word-suggestion
selection, usage tracking, answer normalization, visual-quiz stats updates,
startup persistence recovery, and the practice-screen prefetch pipeline.

The definitions below are shallow embeddings of the TypeScript source:
  - App.tsx: `createStatsUpdater`, `handleStartPractice`, startup stats loading
  - PracticeScreen.tsx / WritingPracticeScreen.tsx / VisualQuizScreen.tsx:
    `getSuggestedWords`, `countUsedWords`, `normalizeJapanese`, `handleSubmit`,
    and the init / advance prefetch protocol.
JavaScript objects `Record<string, number>` are modelled as insertion-ordered
association lists `List (String × Int)`; JavaScript `number` values that hold
integer counts are modelled as `Int`.
-/

namespace HiraganaDojo

/-! ## WordStats: association-list model of a JS `Record<string, number>` -/

/-- Reading `stats[w] || 0`: the value stored under key `w`, or `0` when the
key is absent (JS `undefined || 0`). -/
def getStat : List (String × Int) → String → Int
  | [], _ => 0
  | p :: rest, w => if p.1 = w then p.2 else getStat rest w

/-- JS object assignment `obj[w] = v`: overwrite the first entry with key `w`
in place, or append a new entry at the end. -/
def setStat : List (String × Int) → String → Int → List (String × Int)
  | [], w, v => [(w, v)]
  | p :: rest, w, v => if p.1 = w then (w, v) :: rest else p :: setStat rest w v

/-- JS `w in obj`: whether the key is present. -/
def hasKey : List (String × Int) → String → Bool
  | [], _ => false
  | p :: rest, w => if p.1 = w then true else hasKey rest w

/-- App.tsx `createStatsUpdater` (uncurried): starting from `prevStats`, for
each `(word, count)` entry of `wordCounts` perform
`newStats[word] = (newStats[word] || 0) + count`. -/
def createStatsUpdater (prevStats wordCounts : List (String × Int)) :
    List (String × Int) :=
  wordCounts.foldl (fun newStats p => setStat newStats p.1 (getStat newStats p.1 + p.2)) prevStats

/-- A whole session: a sequence of updates applied through the stats updater. -/
def applyUpdates (prevStats : List (String × Int))
    (updates : List (List (String × Int))) : List (String × Int) :=
  updates.foldl createStatsUpdater prevStats

/-! ## Occurrence counting (PracticeScreen.tsx / WritingPracticeScreen.tsx
`countUsedWords`) -/

/-- Search for the first index `i ≥ start` (scanning upward, `fuel` positions
examined) at which `word` occurs in `text`. -/
def idxGo (text word : List Char) : Nat → Nat → Option Nat
  | _, 0 => none
  | i, fuel + 1 =>
    if word.isPrefixOf (text.drop i) then some i else idxGo text word (i + 1) fuel

/-- JS `text.indexOf(word, start)` (as an `Option`): the least `i ≥ start`
with `word` occurring at `i`.  Candidate positions are `start … text.length`;
a nonempty `word` can only occur at `i ≤ text.length - word.length`, exactly
as in JS. -/
def jsIndexOf (text word : List Char) (start : Nat) : Option Nat :=
  idxGo text word start (text.length + 1 - start)

/-- The counting loop of `countUsedWords`:
`pos = indexOf(word); while (pos !== -1) { count++; pos = indexOf(word, pos+1) }`.
`fuel` bounds the number of iterations; each iteration strictly increases the
search start, so `text.length + 2` iterations always suffice. -/
def countGo (text word : List Char) : Nat → Nat → Nat
  | _, 0 => 0
  | start, fuel + 1 =>
    match jsIndexOf text word start with
    | none => 0
    | some pos => 1 + countGo text word (pos + 1) fuel

/-- Number of occurrences of `word` in `text` found by the source's loop
(the search resumes at `pos + 1`, one character past each match start). -/
def countOccurrences (text word : String) : Nat :=
  countGo text.data word.data 0 (text.data.length + 2)

/-- `countUsedWords`: for every word of the vocabulary, count its occurrences
in `text` and record the positive counts (`counts[word] = count`). -/
def countUsedWords (validWords : List String) (text : String) :
    List (String × Int) :=
  validWords.foldl
    (fun counts word =>
      let count := countOccurrences text word
      if 0 < count then setStat counts word (Int.ofNat count) else counts)
    []

/-- Follows the spec's words, for comparison with `countOccurrences`:
non-overlapping substring occurrence counting, scanning left-to-right (after
a match the scan resumes past the whole matched word).  `fuel` bounds the
scan length. -/
def nonOverlapGo (word : List Char) : List Char → Nat → Nat
  | _, 0 => 0
  | [], _ + 1 => 0
  | c :: rest, fuel + 1 =>
    if word ≠ [] ∧ word.isPrefixOf (c :: rest) then
      1 + nonOverlapGo word ((c :: rest).drop word.length) fuel
    else
      nonOverlapGo word rest fuel

/-- Follows the spec's words: non-overlapping left-to-right occurrence count. -/
def countNonOverlappingSpec (text word : String) : Nat :=
  nonOverlapGo word.data text.data text.data.length

/-! ## Answer normalization -/

/-- The JS regex `\s` character class. -/
def jsWhitespace (c : Char) : Bool :=
  c = ' ' || c = '\t' || c = '\n' || c.toNat = 0x0B || c.toNat = 0x0C ||
  c = '\r' || c.toNat = 0xA0 || c.toNat = 0x1680 ||
  (0x2000 ≤ c.toNat && c.toNat ≤ 0x200A) || c.toNat = 0x2028 ||
  c.toNat = 0x2029 || c.toNat = 0x202F || c.toNat = 0x205F ||
  c.toNat = 0x3000 || c.toNat = 0xFEFF

/-- The character class `[\s　]` of the normalizers (the full-width space
`　` is listed explicitly in the source although `\s` already covers it). -/
def jsSpaceClass (c : Char) : Bool :=
  jsWhitespace c || c.toNat = 0x3000

/-- The fixed punctuation class `[、。！？.,!?]` of the writing normalizer. -/
def jsPunctClass (c : Char) : Bool :=
  c = '、' || c = '。' || c = '！' || c = '？' || c = '.' || c = ',' ||
  c = '!' || c = '?'

/-- JS `text.replace(/[class]/g, '')`: delete every character of the class. -/
def removeChars (cls : Char → Bool) (t : String) : String :=
  String.mk (t.data.filter (fun c => !(cls c)))

/-- JS `String.prototype.trim`: drop leading and trailing whitespace. -/
def jsTrim (t : String) : String :=
  String.mk (((t.data.dropWhile jsWhitespace).reverse.dropWhile jsWhitespace).reverse)

/-- WritingPracticeScreen.tsx `normalizeJapanese`:
`text.replace(/[\s　]/g, '').replace(/[、。！？.,!?]/g, '').trim()`. -/
def normalizeJapanese (text : String) : String :=
  jsTrim (removeChars jsPunctClass (removeChars jsSpaceClass text))

/-- VisualQuizScreen.tsx `normalizeJapanese`:
`text.replace(/[\s　]/g, '').trim()` (no punctuation stripping). -/
def normalizeJapaneseVisual (text : String) : String :=
  jsTrim (removeChars jsSpaceClass text)

/-- WritingPracticeScreen.tsx `handleReveal` correctness test:
`normalizeJapanese(userDraft) === normalizeJapanese(challenge.hiragana)`. -/
def writingIsCorrect (input answer : String) : Bool :=
  decide (normalizeJapanese input = normalizeJapanese answer)

/-- VisualQuizScreen.tsx `handleSubmit` correctness test. -/
def visualIsCorrect (input target : String) : Bool :=
  decide (normalizeJapaneseVisual input = normalizeJapaneseVisual target)

/-- VisualQuizScreen.tsx `handleSubmit` effect on the mode's stats: on a
correct answer update with `{ [targetWord]: 3 }`, otherwise leave the stats
untouched. -/
def visualHandleSubmit (prevStats : List (String × Int))
    (userInput targetWord : String) : List (String × Int) :=
  if visualIsCorrect userInput targetWord then
    createStatsUpdater prevStats [(targetWord, 3)]
  else
    prevStats

/-! ## Vocabulary analysis (App.tsx `handleStartPractice`) -/

/-- Append `x` unless already present: one step of `Array.from(new Set(...))`
insertion-order deduplication. -/
def insertUniq {α : Type} [DecidableEq α] (acc : List α) (x : α) : List α :=
  if x ∈ acc then acc else acc ++ [x]

/-- `Array.from(new Set(l))`: deduplicate keeping first occurrences in order. -/
def dedupList {α : Type} [DecidableEq α] (l : List α) : List α :=
  l.foldl insertUniq []

/-- `text.trim().split(/[\s\n]+/).filter(w => w.length > 0)`: the non-empty
maximal runs of non-whitespace characters, in order. -/
def splitTokens (text : String) : List String :=
  ((text.data.splitOnP jsWhitespace).map String.mk).filter (fun s => s.data ≠ [])

/-- App.tsx `parseWords`: tokenize and deduplicate. -/
def parseWords (text : String) : List String :=
  dedupList (splitTokens text)

/-- The target script's character range test, regex `/[぀-ゟ]/`. -/
def isHiraganaChar (c : Char) : Bool :=
  0x3040 ≤ c.toNat && c.toNat ≤ 0x309F

/-- The character-collection loop of `handleStartPractice`: for every word,
for every character, add in-range characters to the (insertion-ordered) set. -/
def collectChars (ws : List String) : List Char :=
  ws.foldl
    (fun acc w =>
      w.data.foldl (fun acc2 c => if isHiraganaChar c then insertUniq acc2 c else acc2) acc)
    []

/-- types.ts `AnalyzedVocabulary` (allowed characters kept as `Char`s). -/
structure AnalyzedVocabulary where
  validHiraganaWords : List String
  learningWords : List String
  allowedCharacters : List Char

/-- App.tsx `handleStartPractice`: derive the session vocabulary from the two
raw text inputs. -/
def handleStartPractice (knownWords learningWords : String) : AnalyzedVocabulary :=
  let validKnown := parseWords knownWords
  let validLearning := parseWords learningWords
  let allValidWords := dedupList (validKnown ++ validLearning)
  { validHiraganaWords := allValidWords
    learningWords := validLearning
    allowedCharacters := collectChars allValidWords }

/-! ## Suggestion selector (`getSuggestedWords`, identical in all screens) -/

/-- `vocabulary.validHiraganaWords.filter(w => !learningPool.includes(w))`. -/
def knownPool (vocabulary : AnalyzedVocabulary) : List String :=
  vocabulary.validHiraganaWords.filter (fun w => decide (w ∉ vocabulary.learningWords))

/-- `getSuggestedWords`, after the two `sort` calls.  The source sorts each
pool ascending by usage count with a random tie-break (an inconsistent
comparator), whose only JS guarantee is that the result is a permutation of
the pool; the sorted pools are therefore taken as arguments, constrained by
permutation/ordering hypotheses in the theorems.  The selection itself is
`take (min 3 |learning|)` plus `take (max 0 (5 - taken))` known words. -/
def getSuggestedWords (sortedLearning sortedKnown : List String) : List String :=
  let learningCount := min 3 sortedLearning.length
  let selectedLearning := sortedLearning.take learningCount
  let needed : Int := 5 - selectedLearning.length
  let selectedKnown := sortedKnown.take (max 0 needed).toNat
  selectedLearning ++ selectedKnown

/-! ## Startup initialization (App.tsx mount effect, stats loading) -/

/-- Loading one mode's stats:
`if (saved) { try { setStats(JSON.parse(saved)) } catch (e) { } }` starting
from the initial value `{}`.  The external `JSON.parse` is abstracted as a
`parse` function returning `none` on a parse failure (a thrown exception). -/
def initStats (stored : Option String)
    (parse : String → Option (List (String × Int))) : List (String × Int) :=
  match stored with
  | none => []
  | some s =>
    if s = "" then []
    else
      match parse s with
      | some stats => stats
      | none => []

/-- The result of the mount effect for the three stats slots; the effect
always runs to completion and ends with `setIsInitialized(true)`. -/
structure InitResult where
  readingStats : List (String × Int)
  writingStats : List (String × Int)
  visualStats : List (String × Int)
  isInitialized : Bool

/-- App.tsx mount effect, stats-loading part. -/
def appInitialize (storedReading storedWriting storedVisual : Option String)
    (parse : String → Option (List (String × Int))) : InitResult :=
  { readingStats := initStats storedReading parse
    writingStats := initStats storedWriting parse
    visualStats := initStats storedVisual parse
    isInitialized := true }

/-! ## Prefetch pipeline (PracticeScreen.tsx `init` / `handleNextSentence`,
success paths) -/

/-- Observable generation-request events of a practice screen:
`request` = a foreground generation request issued (the initial load),
`buffered` = a generation request issued into the buffer slot
(`queueNextSentence`), `consume` = the buffered request awaited and its
result installed as current. -/
inductive GenEvent where
  | request
  | buffered
  | consume

/-- Total generation requests issued (foreground or buffered). -/
def issuedCount (t : List GenEvent) : Nat :=
  t.countP fun e => match e with | .request => true | .buffered => true | .consume => false

/-- Buffered (prefetch) generation requests issued. -/
def bufferedCount (t : List GenEvent) : Nat :=
  t.countP fun e => match e with | .buffered => true | _ => false

/-- Buffered requests consumed. -/
def consumeCount (t : List GenEvent) : Nat :=
  t.countP fun e => match e with | .consume => true | _ => false

/-- Screen state: whether `bufferPromiseRef.current` is non-null, together
with the event history. -/
structure PipelineState where
  bufferFull : Bool
  trace : List GenEvent

/-- State at mount: `bufferPromiseRef.current = null`, nothing issued. -/
def mountState : PipelineState :=
  { bufferFull := false, trace := [] }

/-- The `init` effect, success path: `await generateSentence(...)` (one
foreground request), then `queueNextSentence()` (one buffered request). -/
def initStep (s : PipelineState) : PipelineState :=
  { bufferFull := true, trace := s.trace ++ [.request, .buffered] }

/-- `handleNextSentence`, success path: if the buffer is empty issue a
buffered request first; await and consume the buffered request; then
`queueNextSentence()` issues the next buffered request. -/
def advanceStep (s : PipelineState) : PipelineState :=
  if s.bufferFull then
    { bufferFull := true, trace := s.trace ++ [.consume, .buffered] }
  else
    { bufferFull := true, trace := s.trace ++ [.buffered, .consume, .buffered] }

/-- The screen's lifecycle: mount, successful initial load, then `n`
successful advance actions. -/
def runPipeline : Nat → PipelineState
  | 0 => initStep mountState
  | n + 1 => advanceStep (runPipeline n)

/-! ## Lemmas about the stats association list -/

theorem getStat_setStat (s : List (String × Int)) (w : String) (v : Int) (x : String) :
    getStat (setStat s w v) x = if x = w then v else getStat s x := by
  induction s with
  | nil =>
    simp only [setStat, getStat]
    by_cases h : w = x
    · simp [h]
    · simp [h, Ne.symm h]
  | cons p rest ih =>
    simp only [setStat]
    by_cases hp : p.1 = w
    · simp only [if_pos hp, getStat]
      by_cases hx : x = w
      · simp [hx]
      · have hwx : ¬ w = x := fun h => hx h.symm
        simp [hx, hp, hwx]
    · simp only [if_neg hp, getStat, ih]
      by_cases hpx : p.1 = x
      · have : ¬ x = w := fun h => hp (hpx.trans h)
        simp [hpx, this]
      · simp [hpx]

theorem hasKey_setStat (s : List (String × Int)) (w : String) (v : Int) (x : String) :
    hasKey (setStat s w v) x = (x = w || hasKey s x) := by
  induction s with
  | nil =>
    simp only [setStat, hasKey]
    by_cases h : w = x
    · simp [h]
    · simp [h, Ne.symm h]
  | cons p rest ih =>
    simp only [setStat]
    by_cases hp : p.1 = w
    · simp only [if_pos hp, hasKey]
      by_cases hx : x = w
      · simp [hx]
      · simp [hx, hp, fun h : w = x => hx h.symm]
    · simp only [if_neg hp, hasKey, ih]
      by_cases hpx : p.1 = x
      · simp [hpx]
      · simp [hpx]

theorem getStat_eq_zero_of_not_hasKey (s : List (String × Int)) (x : String)
    (h : hasKey s x = false) : getStat s x = 0 := by
  induction s with
  | nil => rfl
  | cons p rest ih =>
    simp only [hasKey] at h
    by_cases hp : p.1 = x
    · simp [hp] at h
    · simp only [getStat, if_neg hp]
      exact ih (by simpa [hp] using h)

theorem createStatsUpdater_nil (prev : List (String × Int)) :
    createStatsUpdater prev [] = prev := rfl

theorem createStatsUpdater_cons (prev : List (String × Int)) (p : String × Int)
    (rest : List (String × Int)) :
    createStatsUpdater prev (p :: rest) =
      createStatsUpdater (setStat prev p.1 (getStat prev p.1 + p.2)) rest := rfl

theorem createStatsUpdater_mono (wordCounts : List (String × Int)) :
    ∀ prev : List (String × Int), (∀ p ∈ wordCounts, 0 ≤ p.2) → ∀ w,
      getStat prev w ≤ getStat (createStatsUpdater prev wordCounts) w := by
  induction wordCounts with
  | nil => intro prev _ w; exact le_of_eq rfl
  | cons p rest ih =>
    intro prev h w
    rw [createStatsUpdater_cons]
    refine le_trans ?_ (ih _ (fun q hq => h q (List.mem_cons_of_mem _ hq)) w)
    rw [getStat_setStat]
    by_cases hw : w = p.1
    · rw [if_pos hw, hw]
      have := h p (List.mem_cons_self _ _)
      linarith
    · rw [if_neg hw]

theorem createStatsUpdater_hasKey (wordCounts : List (String × Int)) :
    ∀ prev : List (String × Int), ∀ w, hasKey prev w = true →
      hasKey (createStatsUpdater prev wordCounts) w = true := by
  induction wordCounts with
  | nil => intro prev w h; exact h
  | cons p rest ih =>
    intro prev w h
    rw [createStatsUpdater_cons]
    refine ih _ w ?_
    rw [hasKey_setStat]
    simp [h]

/-- Claim C4: for every sequence of updates applied through the stats
updater, where every update carries only non-negative amounts, each word's
count is monotonically non-decreasing, no entry is ever removed, and an
absent word behaves as count 0. -/
theorem stats_counts_monotone (prev : List (String × Int))
    (updates : List (List (String × Int)))
    (h : ∀ u ∈ updates, ∀ p ∈ u, 0 ≤ p.2) (w : String) :
    getStat prev w ≤ getStat (applyUpdates prev updates) w ∧
    (hasKey prev w = true → hasKey (applyUpdates prev updates) w = true) ∧
    (hasKey prev w = false → getStat prev w = 0) := by
  refine ⟨?_, ?_, getStat_eq_zero_of_not_hasKey prev w⟩
  · induction updates generalizing prev with
    | nil => exact le_of_eq rfl
    | cons u rest ih =>
      have h1 : applyUpdates prev (u :: rest) =
          applyUpdates (createStatsUpdater prev u) rest := rfl
      rw [h1]
      exact le_trans
        (createStatsUpdater_mono u prev (h u (List.mem_cons_self _ _)) w)
        (ih _ (fun v hv => h v (List.mem_cons_of_mem _ hv)))
  · induction updates generalizing prev with
    | nil => exact fun hk => hk
    | cons u rest ih =>
      intro hk
      have h1 : applyUpdates prev (u :: rest) =
          applyUpdates (createStatsUpdater prev u) rest := rfl
      rw [h1]
      exact ih _ (fun v hv => h v (List.mem_cons_of_mem _ hv))
        (createStatsUpdater_hasKey u prev w hk)

theorem stats_counts_monotone_witness :
    (∀ u ∈ [[(("a" : String), (2 : Int))]], ∀ p ∈ u, 0 ≤ p.2) ∧
    getStat [] "a" ≤ getStat (applyUpdates [] [[("a", 2)]]) "a" :=
  ⟨by decide, (stats_counts_monotone [] [[("a", 2)]] (by decide) "a").1⟩

/-- Claim C8: in visual mode the stats update happens only on a correct
answer, and then adds exactly the fixed weight 3 to the target word while
changing no other word's count. -/
theorem visual_submit_spec (prev : List (String × Int)) (input target : String) :
    (visualIsCorrect input target = false → visualHandleSubmit prev input target = prev) ∧
    (visualIsCorrect input target = true →
      getStat (visualHandleSubmit prev input target) target = getStat prev target + 3 ∧
      ∀ w, w ≠ target → getStat (visualHandleSubmit prev input target) w = getStat prev w) := by
  constructor
  · intro h
    simp [visualHandleSubmit, h]
  · intro h
    have hsub : visualHandleSubmit prev input target =
        setStat prev target (getStat prev target + 3) := by
      simp [visualHandleSubmit, h, createStatsUpdater_cons, createStatsUpdater_nil]
    constructor
    · rw [hsub, getStat_setStat, if_pos rfl]
    · intro w hw
      rw [hsub, getStat_setStat, if_neg hw]

theorem visual_submit_spec_witness :
    visualIsCorrect "ね こ" "ねこ" = true ∧
    getStat (visualHandleSubmit [(("ねこ" : String), (1 : Int))] "ね こ" "ねこ") "ねこ" =
      getStat [(("ねこ" : String), (1 : Int))] "ねこ" + 3 :=
  ⟨by decide, ((visual_submit_spec [("ねこ", 1)] "ね こ" "ねこ").2 (by decide)).1⟩

/-- Claim C9: a stored stats string that fails to parse is recovered by
leaving that mode's stats as the empty mapping, and initialization still
completes (ends with `isInitialized = true`). -/
theorem stats_parse_failure_recovery (s : String)
    (parse : String → Option (List (String × Int))) (hparse : parse s = none)
    (storedW storedV : Option String) :
    initStats (some s) parse = [] ∧
    (appInitialize (some s) storedW storedV parse).readingStats = [] ∧
    (appInitialize (some s) storedW storedV parse).isInitialized = true := by
  have h1 : initStats (some s) parse = [] := by
    by_cases he : s = ""
    · simp [initStats, he]
    · simp [initStats, he, hparse]
  exact ⟨h1, h1, rfl⟩

theorem stats_parse_failure_recovery_witness :
    ((fun _ : String => (none : Option (List (String × Int)))) "bad" = none) ∧
    initStats (some "bad") (fun _ => none) = [] :=
  ⟨rfl, (stats_parse_failure_recovery "bad" (fun _ => none) rfl none none).1⟩

/-! ## Lemmas about normalization -/

theorem dropWhileEqSelf {p : Char → Bool} {l : List Char}
    (h : ∀ c ∈ l, p c = false) : l.dropWhile p = l := by
  cases l with
  | nil => rfl
  | cons c rest =>
    rw [List.dropWhile_cons, if_neg]
    simp [h c (List.mem_cons_self _ _)]

theorem filterFilter (p q : Char → Bool) (l : List Char) :
    (l.filter q).filter p = l.filter (fun c => q c && p c) := by
  induction l with
  | nil => rfl
  | cons c rest ih =>
    by_cases hq : q c = true
    · by_cases hp : p c = true
      · simp [List.filter_cons, hq, hp, ih]
      · simp [List.filter_cons, hq, hp, ih]
    · simp [List.filter_cons, hq, ih]

theorem jsTrim_of_no_ws {l : List Char} (h : ∀ c ∈ l, jsWhitespace c = false) :
    jsTrim (String.mk l) = String.mk l := by
  unfold jsTrim
  rw [dropWhileEqSelf h, dropWhileEqSelf (fun c hc => h c (List.mem_reverse.mp hc)),
    List.reverse_reverse]

theorem no_ws_of_filter_space (l : List Char) :
    ∀ c ∈ l.filter (fun c => !(jsSpaceClass c)), jsWhitespace c = false := by
  intro c hc
  have h2 : (!(jsSpaceClass c)) = true := (List.mem_filter.mp hc).2
  have h3 : jsSpaceClass c = false := by simpa using h2
  unfold jsSpaceClass at h3
  rcases Bool.or_eq_false_iff.mp h3 with ⟨h4, _⟩
  exact h4

/-- Claim C7: answer normalization deletes exactly the whitespace characters
(writing variant: also the fixed punctuation set) and correctness is exact
equality of the normalized strings; the spec's concrete example holds. -/
theorem normalization_spec (t tv input answer : String) :
    (normalizeJapanese t).data =
      t.data.filter (fun c => !(jsSpaceClass c) && !(jsPunctClass c)) ∧
    (normalizeJapaneseVisual tv).data = tv.data.filter (fun c => !(jsSpaceClass c)) ∧
    (writingIsCorrect input answer = true ↔
      normalizeJapanese input = normalizeJapanese answer) ∧
    (visualIsCorrect input answer = true ↔
      normalizeJapaneseVisual input = normalizeJapaneseVisual answer) ∧
    normalizeJapanese "わたし は ねこ。" = normalizeJapanese "わたしはねこ" := by
  refine ⟨?_, ?_, ?_, ?_, ?_⟩
  · unfold normalizeJapanese removeChars
    have hws : ∀ c ∈ (t.data.filter (fun c => !(jsSpaceClass c))).filter
        (fun c => !(jsPunctClass c)), jsWhitespace c = false := by
      intro c hc
      exact no_ws_of_filter_space t.data c (List.mem_of_mem_filter hc)
    rw [jsTrim_of_no_ws hws]
    simp only [filterFilter]
  · unfold normalizeJapaneseVisual removeChars
    rw [jsTrim_of_no_ws (no_ws_of_filter_space tv.data)]
  · simp [writingIsCorrect]
  · simp [visualIsCorrect]
  · decide

/-! ## Lemmas about deduplication and vocabulary analysis -/

theorem mem_insertUniq {α : Type} [DecidableEq α] (acc : List α) (a x : α) :
    x ∈ insertUniq acc a ↔ x ∈ acc ∨ x = a := by
  unfold insertUniq
  by_cases h : a ∈ acc
  · rw [if_pos h]
    constructor
    · exact Or.inl
    · rintro (hx | rfl)
      · exact hx
      · exact h
  · rw [if_neg h]
    simp [List.mem_append]

theorem nodup_insertUniq {α : Type} [DecidableEq α] (acc : List α) (a : α)
    (h : acc.Nodup) : (insertUniq acc a).Nodup := by
  unfold insertUniq
  by_cases hm : a ∈ acc
  · rwa [if_pos hm]
  · rw [if_neg hm]
    refine List.nodup_append.mpr ⟨h, List.nodup_singleton a, ?_⟩
    intro x hx hxa
    rw [List.mem_singleton] at hxa
    subst hxa
    exact hm hx

theorem mem_foldl_insertUniq {α : Type} [DecidableEq α] (l : List α) :
    ∀ (acc : List α) (x : α), x ∈ l.foldl insertUniq acc ↔ x ∈ acc ∨ x ∈ l := by
  induction l with
  | nil => intro acc x; simp
  | cons a rest ih =>
    intro acc x
    rw [List.foldl_cons, ih, mem_insertUniq, List.mem_cons]
    tauto

theorem nodup_foldl_insertUniq {α : Type} [DecidableEq α] (l : List α) :
    ∀ acc : List α, acc.Nodup → (l.foldl insertUniq acc).Nodup := by
  induction l with
  | nil => intro acc h; exact h
  | cons a rest ih =>
    intro acc h
    exact ih _ (nodup_insertUniq acc a h)

theorem mem_dedupList {α : Type} [DecidableEq α] (l : List α) (x : α) :
    x ∈ dedupList l ↔ x ∈ l := by
  unfold dedupList
  rw [mem_foldl_insertUniq]
  simp

theorem nodup_dedupList {α : Type} [DecidableEq α] (l : List α) :
    (dedupList l).Nodup :=
  nodup_foldl_insertUniq l [] List.nodup_nil

/-- Claim C5: `validWords` is the deduplicated union of the non-empty
whitespace-separated tokens of both inputs, and `learningWords` (the
deduplicated tokens of the learning input) is a subset of `validWords`. -/
theorem vocabulary_analysis_spec (known learning : String) :
    (∀ w, w ∈ (handleStartPractice known learning).validHiraganaWords ↔
       (w ∈ splitTokens known ∨ w ∈ splitTokens learning)) ∧
    (handleStartPractice known learning).validHiraganaWords.Nodup ∧
    (∀ w, w ∈ (handleStartPractice known learning).learningWords ↔
       w ∈ splitTokens learning) ∧
    (handleStartPractice known learning).learningWords.Nodup ∧
    (∀ w, w ∈ (handleStartPractice known learning).learningWords →
       w ∈ (handleStartPractice known learning).validHiraganaWords) := by
  have hvalid : ∀ w, w ∈ (handleStartPractice known learning).validHiraganaWords ↔
      (w ∈ splitTokens known ∨ w ∈ splitTokens learning) := by
    intro w
    show w ∈ dedupList (parseWords known ++ parseWords learning) ↔ _
    rw [mem_dedupList, List.mem_append]
    unfold parseWords
    rw [mem_dedupList, mem_dedupList]
  have hlearn : ∀ w, w ∈ (handleStartPractice known learning).learningWords ↔
      w ∈ splitTokens learning := by
    intro w
    show w ∈ parseWords learning ↔ _
    unfold parseWords
    rw [mem_dedupList]
  refine ⟨hvalid, nodup_dedupList _, hlearn, nodup_dedupList _, ?_⟩
  intro w hw
  exact (hvalid w).mpr (Or.inr ((hlearn w).mp hw))

theorem collect_inner_mem (cs : List Char) :
    ∀ (acc : List Char) (x : Char),
      x ∈ cs.foldl (fun acc2 c => if isHiraganaChar c then insertUniq acc2 c else acc2) acc ↔
        x ∈ acc ∨ (x ∈ cs ∧ isHiraganaChar x = true) := by
  induction cs with
  | nil => intro acc x; simp
  | cons c rest ih =>
    intro acc x
    rw [List.foldl_cons, ih]
    by_cases hc : isHiraganaChar c = true
    · rw [if_pos hc, mem_insertUniq]
      constructor
      · rintro ((hx | rfl) | ⟨hx, hh⟩)
        · exact Or.inl hx
        · exact Or.inr ⟨List.mem_cons_self _ _, hc⟩
        · exact Or.inr ⟨List.mem_cons_of_mem _ hx, hh⟩
      · rintro (hx | ⟨hx, hh⟩)
        · exact Or.inl (Or.inl hx)
        · rcases List.mem_cons.mp hx with rfl | hx
          · exact Or.inl (Or.inr rfl)
          · exact Or.inr ⟨hx, hh⟩
    · rw [if_neg hc]
      constructor
      · rintro (hx | ⟨hx, hh⟩)
        · exact Or.inl hx
        · exact Or.inr ⟨List.mem_cons_of_mem _ hx, hh⟩
      · rintro (hx | ⟨hx, hh⟩)
        · exact Or.inl hx
        · rcases List.mem_cons.mp hx with rfl | hx
          · exact absurd hh hc
          · exact Or.inr ⟨hx, hh⟩

theorem collect_inner_nodup (cs : List Char) :
    ∀ acc : List Char, acc.Nodup →
      (cs.foldl (fun acc2 c => if isHiraganaChar c then insertUniq acc2 c else acc2) acc).Nodup := by
  induction cs with
  | nil => intro acc h; exact h
  | cons c rest ih =>
    intro acc h
    rw [List.foldl_cons]
    refine ih _ ?_
    by_cases hc : isHiraganaChar c = true
    · rw [if_pos hc]; exact nodup_insertUniq acc c h
    · rwa [if_neg hc]

theorem collectChars_mem (ws : List String) :
    ∀ (acc : List Char) (x : Char),
      x ∈ ws.foldl (fun acc w =>
          w.data.foldl (fun acc2 c => if isHiraganaChar c then insertUniq acc2 c else acc2) acc)
        acc ↔
        x ∈ acc ∨ ∃ w, w ∈ ws ∧ x ∈ w.data ∧ isHiraganaChar x = true := by
  induction ws with
  | nil => intro acc x; simp
  | cons w rest ih =>
    intro acc x
    rw [List.foldl_cons, ih, collect_inner_mem]
    constructor
    · rintro ((hx | ⟨hx, hh⟩) | ⟨u, hu, hx, hh⟩)
      · exact Or.inl hx
      · exact Or.inr ⟨w, List.mem_cons_self _ _, hx, hh⟩
      · exact Or.inr ⟨u, List.mem_cons_of_mem _ hu, hx, hh⟩
    · rintro (hx | ⟨u, hu, hx, hh⟩)
      · exact Or.inl (Or.inl hx)
      · rcases List.mem_cons.mp hu with rfl | hu
        · exact Or.inl (Or.inr ⟨hx, hh⟩)
        · exact Or.inr ⟨u, hu, hx, hh⟩

theorem collectChars_nodup (ws : List String) :
    ∀ acc : List Char, acc.Nodup →
      (ws.foldl (fun acc w =>
          w.data.foldl (fun acc2 c => if isHiraganaChar c then insertUniq acc2 c else acc2) acc)
        acc).Nodup := by
  induction ws with
  | nil => intro acc h; exact h
  | cons w rest ih =>
    intro acc h
    rw [List.foldl_cons]
    exact ih _ (collect_inner_nodup w.data acc h)

/-- Claim C6: `allowedCharacters` contains exactly the distinct characters of
valid words lying in the range U+3040–U+309F, and no others. -/
theorem allowed_characters_spec (known learning : String) :
    (∀ c, c ∈ (handleStartPractice known learning).allowedCharacters ↔
       ∃ w, w ∈ (handleStartPractice known learning).validHiraganaWords ∧
         c ∈ w.data ∧ 0x3040 ≤ c.toNat ∧ c.toNat ≤ 0x309F) ∧
    (handleStartPractice known learning).allowedCharacters.Nodup := by
  constructor
  · intro c
    show c ∈ collectChars (dedupList (parseWords known ++ parseWords learning)) ↔ _
    unfold collectChars
    rw [collectChars_mem]
    have hrange : isHiraganaChar c = true ↔ 0x3040 ≤ c.toNat ∧ c.toNat ≤ 0x309F := by
      simp [isHiraganaChar]
    constructor
    · rintro (hx | ⟨w, hw, hc, hh⟩)
      · simp at hx
      · exact ⟨w, hw, hc, hrange.mp hh⟩
    · rintro ⟨w, hw, hc, hh⟩
      exact Or.inr ⟨w, hw, hc, hrange.mpr hh⟩
  · exact collectChars_nodup _ [] List.nodup_nil

/-! ## Lemmas about the suggestion selector -/

theorem mem_knownPool (vocab : AnalyzedVocabulary) (w : String) :
    w ∈ knownPool vocab ↔
      w ∈ vocab.validHiraganaWords ∧ w ∉ vocab.learningWords := by
  unfold knownPool
  rw [List.mem_filter]
  simp

theorem getSuggestedWords_eq (sortedLearning sortedKnown : List String) :
    getSuggestedWords sortedLearning sortedKnown =
      sortedLearning.take 3 ++ sortedKnown.take (5 - (sortedLearning.take 3).length) := by
  have htake : sortedLearning.take (min 3 sortedLearning.length) = sortedLearning.take 3 := by
    rcases le_total sortedLearning.length 3 with h | h
    · rw [min_eq_right h, List.take_length, List.take_of_length_le h]
    · rw [min_eq_left h]
  have hlen : (sortedLearning.take 3).length ≤ 3 := by
    rw [List.length_take]
    exact min_le_left _ _
  show sortedLearning.take (min 3 sortedLearning.length) ++
      sortedKnown.take
        (max 0 ((5 : Int) - (sortedLearning.take (min 3 sortedLearning.length)).length)).toNat = _
  rw [htake]
  congr 1
  congr 1
  omega

/-- Claim C3: the selector returns at most 5 words with no duplicates,
placing its learning-pool selection (at most 3 words, the least-used ones)
before the known-pool fill of `min(knownPoolSize, max(0, 5 - learningTaken))`
words.  The source sorts each pool by usage with a random tie-break, so the
sorted pools enter as permutations of the pools, the learning one ordered by
usage count. -/
theorem suggestion_selector_spec (vocab : AnalyzedVocabulary)
    (stats : List (String × Int)) (sortedLearning sortedKnown : List String)
    (hv : vocab.validHiraganaWords.Nodup)
    (hpl : sortedLearning.Perm vocab.learningWords)
    (hpk : sortedKnown.Perm (knownPool vocab))
    (hsorted : List.Pairwise (fun a b => getStat stats a ≤ getStat stats b) sortedLearning) :
    (getSuggestedWords sortedLearning sortedKnown).length ≤ 5 ∧
    (vocab.learningWords.Nodup → (getSuggestedWords sortedLearning sortedKnown).Nodup) ∧
    ∃ l k, getSuggestedWords sortedLearning sortedKnown = l ++ k ∧
      l.length = min 3 vocab.learningWords.length ∧
      k.length = min (knownPool vocab).length (5 - l.length) ∧
      (∀ w ∈ l, w ∈ vocab.learningWords) ∧
      (∀ w ∈ k, w ∈ knownPool vocab) ∧
      (∀ w ∈ l, ∀ v ∈ sortedLearning.drop 3, getStat stats w ≤ getStat stats v) := by
  rw [getSuggestedWords_eq]
  have hllen : (sortedLearning.take 3).length = min 3 vocab.learningWords.length := by
    rw [List.length_take, hpl.length_eq]
  have hl3 : (sortedLearning.take 3).length ≤ 3 := by
    rw [List.length_take]; exact min_le_left _ _
  have hklen : (sortedKnown.take (5 - (sortedLearning.take 3).length)).length =
      min (knownPool vocab).length (5 - (sortedLearning.take 3).length) := by
    rw [List.length_take, hpk.length_eq, Nat.min_comm]
  have hmeml : ∀ w ∈ sortedLearning.take 3, w ∈ vocab.learningWords := fun w hw =>
    hpl.mem_iff.mp (List.mem_of_mem_take hw)
  have hmemk : ∀ w ∈ sortedKnown.take (5 - (sortedLearning.take 3).length),
      w ∈ knownPool vocab := fun w hw => hpk.mem_iff.mp (List.mem_of_mem_take hw)
  refine ⟨?_, ?_, sortedLearning.take 3, sortedKnown.take (5 - (sortedLearning.take 3).length),
    rfl, hllen, hklen, hmeml, hmemk, ?_⟩
  · rw [List.length_append]
    have : (sortedKnown.take (5 - (sortedLearning.take 3).length)).length ≤
        5 - (sortedLearning.take 3).length := by
      rw [List.length_take]; exact min_le_left _ _
    omega
  · intro hlnd
    rw [List.nodup_append]
    refine ⟨(List.take_sublist _ _).nodup (hpl.nodup_iff.mpr hlnd),
      (List.take_sublist _ _).nodup (hpk.nodup_iff.mpr (List.Nodup.filter _ hv)), ?_⟩
    intro w hwl hwk
    exact ((mem_knownPool vocab w).mp (hmemk w hwk)).2 (hmeml w hwl)
  · intro w hw v hv'
    have hsplit := hsorted
    rw [← List.take_append_drop 3 sortedLearning, List.pairwise_append] at hsplit
    exact hsplit.2.2 w hw v hv'

theorem suggestion_selector_spec_witness :
    ((["みず"] : List String).Perm
      (AnalyzedVocabulary.mk ["わたし", "ねこ", "みず"] ["みず"] []).learningWords) ∧
    (getSuggestedWords ["みず"] ["わたし", "ねこ"]).length ≤ 5 :=
  ⟨List.Perm.refl _,
    (suggestion_selector_spec (AnalyzedVocabulary.mk ["わたし", "ねこ", "みず"] ["みず"] [])
      [] ["みず"] ["わたし", "ねこ"] (by decide) (List.Perm.refl _) (by decide)
      (by decide)).1⟩

/-- Claim C10: with an empty known pool and more than three learning words
the selector returns exactly 3 words — the learning cap keeps the 5-slot
budget from being filled from the learning pool. -/
theorem suggestion_selector_learning_cap (vocab : AnalyzedVocabulary)
    (sortedLearning sortedKnown : List String)
    (hpl : sortedLearning.Perm vocab.learningWords)
    (hpk : sortedKnown.Perm (knownPool vocab))
    (hkempty : knownPool vocab = [])
    (hbig : 3 < vocab.learningWords.length) :
    (getSuggestedWords sortedLearning sortedKnown).length = 3 := by
  have hk : sortedKnown = [] := by
    rw [hkempty] at hpk
    exact hpk.eq_nil
  rw [getSuggestedWords_eq, hk, List.take_nil, List.append_nil, List.length_take,
    hpl.length_eq]
  omega

theorem suggestion_selector_learning_cap_witness :
    knownPool (AnalyzedVocabulary.mk ["あ", "い", "う", "え"] ["あ", "い", "う", "え"] []) = [] ∧
    (getSuggestedWords ["あ", "い", "う", "え"] []).length = 3 :=
  ⟨by decide,
    suggestion_selector_learning_cap
      (AnalyzedVocabulary.mk ["あ", "い", "う", "え"] ["あ", "い", "う", "え"] [])
      ["あ", "い", "う", "え"] [] (List.Perm.refl _) (by decide) (by decide) (by decide)⟩

/-! ## Lemmas about occurrence counting -/

theorem idxGo_some (text word : List Char) :
    ∀ (fuel i p : Nat), idxGo text word i fuel = some p →
      i ≤ p ∧ p < i + fuel ∧ word.isPrefixOf (text.drop p) = true ∧
      ∀ j, i ≤ j → j < p → word.isPrefixOf (text.drop j) = false := by
  intro fuel
  induction fuel with
  | zero => intro i p h; exact absurd h (by simp [idxGo])
  | succ fuel ih =>
    intro i p h
    by_cases hpre : word.isPrefixOf (text.drop i) = true
    · have hp : p = i := by
        have := h
        simp only [idxGo, if_pos hpre] at this
        exact (Option.some_inj.mp this).symm
      subst hp
      exact ⟨le_refl _, by omega, hpre, fun j h1 h2 => absurd h1 (by omega)⟩
    · have hrec : idxGo text word (i + 1) fuel = some p := by
        have := h
        simp only [idxGo, if_neg hpre] at this
        exact this
      obtain ⟨h1, h2, h3, h4⟩ := ih (i + 1) p hrec
      refine ⟨by omega, by omega, h3, ?_⟩
      intro j hj1 hj2
      by_cases hji : j = i
      · have hfalse : word.isPrefixOf (text.drop i) = false := by
          cases hb : word.isPrefixOf (text.drop i)
          · rfl
          · exact absurd hb hpre
        rwa [hji]
      · exact h4 j (by omega) hj2

theorem idxGo_none (text word : List Char) :
    ∀ (fuel i : Nat), idxGo text word i fuel = none →
      ∀ j, i ≤ j → j < i + fuel → word.isPrefixOf (text.drop j) = false := by
  intro fuel
  induction fuel with
  | zero => intro i _ j h1 h2; omega
  | succ fuel ih =>
    intro i h j h1 h2
    by_cases hpre : word.isPrefixOf (text.drop i) = true
    · exact absurd h (by simp [idxGo, hpre])
    · have hrec : idxGo text word (i + 1) fuel = none := by
        have := h
        simp only [idxGo, if_neg hpre] at this
        exact this
      by_cases hji : j = i
      · have hfalse : word.isPrefixOf (text.drop i) = false := by
          cases hb : word.isPrefixOf (text.drop i)
          · rfl
          · exact absurd hb hpre
        rwa [hji]
      · exact ih (i + 1) hrec j (by omega) (by omega)

theorem jsIndexOf_none (text word : List Char) (start : Nat)
    (h : jsIndexOf text word start = none) :
    ∀ j, start ≤ j → j ≤ text.length → word.isPrefixOf (text.drop j) = false := by
  intro j h1 h2
  exact idxGo_none text word (text.length + 1 - start) start h j h1 (by omega)

theorem jsIndexOf_some (text word : List Char) (start p : Nat)
    (h : jsIndexOf text word start = some p) :
    start ≤ p ∧ p ≤ text.length ∧ word.isPrefixOf (text.drop p) = true ∧
      ∀ j, start ≤ j → j < p → word.isPrefixOf (text.drop j) = false := by
  obtain ⟨h1, h2, h3, h4⟩ := idxGo_some text word (text.length + 1 - start) start p h
  exact ⟨h1, by omega, h3, h4⟩

theorem countGo_eq (text word : List Char) :
    ∀ (fuel start : Nat), text.length + 2 - start ≤ fuel →
      countGo text word start fuel =
        ((Finset.range (text.length + 1)).filter
          (fun i => start ≤ i ∧ word.isPrefixOf (text.drop i) = true)).card := by
  intro fuel
  induction fuel with
  | zero =>
    intro start h
    have hempty : ((Finset.range (text.length + 1)).filter
        (fun i => start ≤ i ∧ word.isPrefixOf (text.drop i) = true)).card = 0 := by
      rw [Finset.card_eq_zero, Finset.filter_eq_empty_iff]
      intro i hi
      rw [Finset.mem_range] at hi
      rintro ⟨hsi, _⟩
      omega
    rw [hempty]
    rfl
  | succ fuel ih =>
    intro start h
    cases hidx : jsIndexOf text word start with
    | none =>
      have hempty : ((Finset.range (text.length + 1)).filter
          (fun i => start ≤ i ∧ word.isPrefixOf (text.drop i) = true)).card = 0 := by
        rw [Finset.card_eq_zero, Finset.filter_eq_empty_iff]
        intro i hi
        rw [Finset.mem_range] at hi
        rintro ⟨hsi, hp⟩
        rw [jsIndexOf_none text word start hidx i hsi (by omega)] at hp
        exact Bool.false_ne_true hp
      rw [hempty]
      simp [countGo, hidx]
    | some p =>
      obtain ⟨hsp, hplen, hpre, hmin⟩ := jsIndexOf_some text word start p hidx
      have hstep : countGo text word start (fuel + 1) = 1 + countGo text word (p + 1) fuel := by
        simp [countGo, hidx]
      rw [hstep, ih (p + 1) (by omega)]
      have hins : (Finset.range (text.length + 1)).filter
          (fun i => start ≤ i ∧ word.isPrefixOf (text.drop i) = true) =
          insert p ((Finset.range (text.length + 1)).filter
            (fun i => p + 1 ≤ i ∧ word.isPrefixOf (text.drop i) = true)) := by
        ext i
        simp only [Finset.mem_insert, Finset.mem_filter, Finset.mem_range]
        constructor
        · rintro ⟨hilen, hsi, hp⟩
          rcases lt_trichotomy i p with hlt | rfl | hgt
          · rw [hmin i hsi hlt] at hp
            exact absurd hp Bool.false_ne_true
          · exact Or.inl rfl
          · exact Or.inr ⟨hilen, by omega, hp⟩
        · rintro (rfl | ⟨hilen, hpi, hp⟩)
          · exact ⟨by omega, hsp, hpre⟩
          · exact ⟨hilen, by omega, hp⟩
      rw [hins, Finset.card_insert_of_not_mem]
      · omega
      · rw [Finset.mem_filter]
        rintro ⟨_, hpi, _⟩
        omega

theorem countOccurrences_eq (text word : String) :
    countOccurrences text word =
      ((Finset.range (text.data.length + 1)).filter
        (fun i => word.data.isPrefixOf (text.data.drop i) = true)).card := by
  unfold countOccurrences
  rw [countGo_eq text.data word.data (text.data.length + 2) 0 (by omega)]
  congr 1
  apply Finset.filter_congr
  intro i _
  simp

/-! ## Lemmas about the `countUsedWords` record -/

theorem hasKey_iff_mem_keys (s : List (String × Int)) (w : String) :
    hasKey s w = true ↔ w ∈ s.map Prod.fst := by
  induction s with
  | nil => simp [hasKey]
  | cons p rest ih =>
    by_cases hp : p.1 = w
    · simp [hasKey, hp]
    · simp only [hasKey, if_neg hp, ih, List.map_cons, List.mem_cons]
      constructor
      · exact Or.inr
      · rintro (h | h)
        · exact absurd h.symm hp
        · exact h

theorem keys_setStat (s : List (String × Int)) (w : String) (v : Int) :
    (setStat s w v).map Prod.fst =
      if hasKey s w = true then s.map Prod.fst else s.map Prod.fst ++ [w] := by
  induction s with
  | nil => simp [setStat, hasKey]
  | cons p rest ih =>
    by_cases hp : p.1 = w
    · simp [setStat, hasKey, hp]
    · simp only [setStat, if_neg hp, hasKey, List.map_cons, ih]
      by_cases hk : hasKey rest w = true
      · simp [hk, hp]
      · simp [hk, hp]

theorem keys_nodup_setStat (s : List (String × Int)) (w : String) (v : Int)
    (h : (s.map Prod.fst).Nodup) : ((setStat s w v).map Prod.fst).Nodup := by
  rw [keys_setStat]
  by_cases hk : hasKey s w = true
  · rwa [if_pos hk]
  · rw [if_neg hk]
    refine List.nodup_append.mpr ⟨h, List.nodup_singleton w, ?_⟩
    intro x hx hxw
    rw [List.mem_singleton] at hxw
    subst hxw
    exact hk ((hasKey_iff_mem_keys s x).mpr hx)

theorem countUsedWords_untouched (text : String) (ws : List String) :
    ∀ (acc : List (String × Int)) (w : String), w ∉ ws →
      getStat (ws.foldl (fun counts word =>
        let count := countOccurrences text word
        if 0 < count then setStat counts word (Int.ofNat count) else counts) acc) w =
      getStat acc w := by
  induction ws with
  | nil => intro acc w _; rfl
  | cons a rest ih =>
    intro acc w hw
    have hwa : w ≠ a := fun h => hw (h ▸ List.mem_cons_self _ _)
    have hwr : w ∉ rest := fun h => hw (List.mem_cons_of_mem _ h)
    rw [List.foldl_cons, ih _ w hwr]
    by_cases hc : 0 < countOccurrences text a
    · simp only [if_pos hc, getStat_setStat, if_neg hwa]
    · simp only [if_neg hc]

theorem countUsedWords_getStat_aux (text : String) (ws : List String) :
    ∀ (acc : List (String × Int)) (w : String), w ∈ ws →
      getStat (ws.foldl (fun counts word =>
        let count := countOccurrences text word
        if 0 < count then setStat counts word (Int.ofNat count) else counts) acc) w =
      if 0 < countOccurrences text w then Int.ofNat (countOccurrences text w)
      else getStat acc w := by
  induction ws with
  | nil => intro acc w hw; exact absurd hw (List.not_mem_nil w)
  | cons a rest ih =>
    intro acc w hw
    rw [List.foldl_cons]
    by_cases hr : w ∈ rest
    · rw [ih _ w hr]
      by_cases hc : 0 < countOccurrences text w
      · rw [if_pos hc, if_pos hc]
      · rw [if_neg hc, if_neg hc]
        by_cases hwa : w = a
        · subst hwa
          simp only [if_neg hc]
        · by_cases hca : 0 < countOccurrences text a
          · simp only [if_pos hca, getStat_setStat, if_neg hwa]
          · simp only [if_neg hca]
    · have hwa : w = a := by
        rcases List.mem_cons.mp hw with h | h
        · exact h
        · exact absurd h hr
      subst hwa
      rw [countUsedWords_untouched text rest _ w hr]
      by_cases hc : 0 < countOccurrences text w
      · simp [hc, getStat_setStat]
      · simp only [if_neg hc]

theorem countUsedWords_getStat (validWords : List String) (text : String)
    (w : String) (hw : w ∈ validWords) :
    getStat (countUsedWords validWords text) w = Int.ofNat (countOccurrences text w) := by
  unfold countUsedWords
  rw [countUsedWords_getStat_aux text validWords [] w hw]
  by_cases hc : 0 < countOccurrences text w
  · rw [if_pos hc]
  · rw [if_neg hc]
    have h0 : countOccurrences text w = 0 := by omega
    rw [h0]
    rfl

theorem countUsedWords_keys_nodup (validWords : List String) (text : String) :
    ((countUsedWords validWords text).map Prod.fst).Nodup := by
  unfold countUsedWords
  suffices h : ∀ acc : List (String × Int), (acc.map Prod.fst).Nodup →
      ((validWords.foldl (fun counts word =>
        let count := countOccurrences text word
        if 0 < count then setStat counts word (Int.ofNat count) else counts)
        acc).map Prod.fst).Nodup from
    h [] List.nodup_nil
  induction validWords with
  | nil => intro acc h; exact h
  | cons a rest ih =>
    intro acc h
    rw [List.foldl_cons]
    refine ih _ ?_
    by_cases hc : 0 < countOccurrences text a
    · simp only [if_pos hc]
      exact keys_nodup_setStat acc a _ h
    · simpa only [if_neg hc]

theorem createStatsUpdater_add (wordCounts : List (String × Int))
    (hnd : (wordCounts.map Prod.fst).Nodup) :
    ∀ (prev : List (String × Int)) (w : String),
      getStat (createStatsUpdater prev wordCounts) w = getStat prev w + getStat wordCounts w := by
  induction wordCounts with
  | nil => intro prev w; show getStat prev w = getStat prev w + 0; omega
  | cons p rest ih =>
    intro prev w
    rw [List.map_cons, List.nodup_cons] at hnd
    rw [createStatsUpdater_cons, ih hnd.2]
    by_cases hwp : w = p.1
    · have hrest : getStat rest w = 0 := by
        apply getStat_eq_zero_of_not_hasKey
        cases hk : hasKey rest w
        · rfl
        · exact absurd (hwp ▸ (hasKey_iff_mem_keys rest w).mp hk) hnd.1
      rw [getStat_setStat, if_pos hwp, hrest]
      show getStat prev p.1 + p.2 + 0 = getStat prev w + getStat (p :: rest) w
      have : getStat (p :: rest) w = p.2 := by
        show (if p.1 = w then p.2 else getStat rest w) = p.2
        rw [if_pos hwp.symm]
      rw [this, hwp]
      omega
    · rw [getStat_setStat, if_neg hwp]
      have : getStat (p :: rest) w = getStat rest w := by
        show (if p.1 = w then p.2 else getStat rest w) = getStat rest w
        rw [if_neg (fun h => hwp h.symm)]
      rw [this]

/-- Claim C2 counterexample: the source counts occurrences at every starting
position (the search resumes at `pos + 1`), so for text `あああ` and word
`ああ` it records 2 while non-overlapping left-to-right counting gives 1. -/
theorem usage_count_overlap_counterexample :
    getStat (countUsedWords ["ああ"] "あああ") "ああ" = 2 ∧
    countNonOverlappingSpec "あああ" "ああ" = 1 ∧ (2 : Int) ≠ (1 : Int) := by
  refine ⟨?_, ?_, by decide⟩
  · decide
  · decide

/-- Claim C2 (amended): for every word of `validWords` the usage update
records the number of occurrence positions of the word in the text —
left-to-right scanning that resumes one character past each match start, so
overlapping occurrences are all counted (not non-overlapping counting) — the
spec's example yields 2, and for every word the recorded count is added to
the mode's totals. -/
theorem usage_count_spec (validWords : List String) (text : String)
    (prev : List (String × Int)) (w : String) (hw : w ∈ validWords) :
    getStat (countUsedWords validWords text) w = Int.ofNat (countOccurrences text w) ∧
    countOccurrences text w =
      ((Finset.range (text.data.length + 1)).filter
        (fun i => w.data.isPrefixOf (text.data.drop i) = true)).card ∧
    getStat (createStatsUpdater prev (countUsedWords validWords text)) w =
      getStat prev w + Int.ofNat (countOccurrences text w) ∧
    countOccurrences "ねこがねこをみる" "ねこ" = 2 := by
  have h1 := countUsedWords_getStat validWords text w hw
  refine ⟨h1, countOccurrences_eq text w, ?_, by decide⟩
  rw [createStatsUpdater_add (countUsedWords validWords text)
    (countUsedWords_keys_nodup validWords text) prev w, h1]

theorem usage_count_spec_witness :
    ("ねこ" : String) ∈ (["ねこ"] : List String) ∧
    getStat (countUsedWords ["ねこ"] "ねこがねこをみる") "ねこ" =
      Int.ofNat (countOccurrences "ねこがねこをみる" "ねこ") :=
  ⟨by decide, (usage_count_spec ["ねこ"] "ねこがねこをみる" [] "ねこ" (by decide)).1⟩

/-! ## Lemmas about the prefetch pipeline -/

theorem consumeCount_append (t u : List GenEvent) :
    consumeCount (t ++ u) = consumeCount t + consumeCount u :=
  List.countP_append _ _ _

theorem bufferedCount_append (t u : List GenEvent) :
    bufferedCount (t ++ u) = bufferedCount t + bufferedCount u :=
  List.countP_append _ _ _

theorem issuedCount_append (t u : List GenEvent) :
    issuedCount (t ++ u) = issuedCount t + issuedCount u :=
  List.countP_append _ _ _

theorem pipeline_invariant (n : Nat) :
    (runPipeline n).bufferFull = true ∧
    consumeCount (runPipeline n).trace = n ∧
    bufferedCount (runPipeline n).trace = n + 1 ∧
    issuedCount (runPipeline n).trace = n + 2 ∧
    ∀ k, consumeCount ((runPipeline n).trace.take k) ≤
        bufferedCount ((runPipeline n).trace.take k) ∧
      bufferedCount ((runPipeline n).trace.take k) ≤
        consumeCount ((runPipeline n).trace.take k) + 1 := by
  induction n with
  | zero =>
    refine ⟨rfl, rfl, rfl, rfl, ?_⟩
    intro k
    have htr : (runPipeline 0).trace = [GenEvent.request, GenEvent.buffered] := rfl
    rw [htr]
    match k with
    | 0 => exact ⟨by decide, by decide⟩
    | 1 => exact ⟨by decide, by decide⟩
    | (k + 2) =>
      rw [List.take_of_length_le (by simp)]
      exact ⟨by decide, by decide⟩
  | succ n ih =>
    obtain ⟨hbuf, hcons, hpre, hiss, htake⟩ := ih
    have hstep : runPipeline (n + 1) =
        { bufferFull := true,
          trace := (runPipeline n).trace ++ [GenEvent.consume, GenEvent.buffered] } := by
      show advanceStep (runPipeline n) = _
      simp [advanceStep, hbuf]
    rw [hstep]
    have ec : consumeCount [GenEvent.consume, GenEvent.buffered] = 1 := rfl
    have eb : bufferedCount [GenEvent.consume, GenEvent.buffered] = 1 := rfl
    have ei : issuedCount [GenEvent.consume, GenEvent.buffered] = 1 := rfl
    refine ⟨rfl, ?_, ?_, ?_, ?_⟩
    · rw [consumeCount_append, hcons, ec]
    · rw [bufferedCount_append, hpre, eb]
    · rw [issuedCount_append, hiss, ei]
    · intro k
      by_cases hk : k ≤ (runPipeline n).trace.length
      · rw [List.take_append_of_le_length hk]
        exact htake k
      · have hfull : (runPipeline n).trace.take k = (runPipeline n).trace :=
          List.take_of_length_le (by omega)
        rw [List.take_append_eq_append_take, hfull, consumeCount_append,
          bufferedCount_append, hcons, hpre]
        rcases hm : k - (runPipeline n).trace.length with _ | m
        · omega
        · rcases m with _ | m
          · have e1 : consumeCount
                (List.take 1 [GenEvent.consume, GenEvent.buffered]) = 1 := rfl
            have e2 : bufferedCount
                (List.take 1 [GenEvent.consume, GenEvent.buffered]) = 0 := rfl
            rw [e1, e2]
            omega
          · have e3 : List.take (m + 2) [GenEvent.consume, GenEvent.buffered] =
                [GenEvent.consume, GenEvent.buffered] :=
              List.take_of_length_le (by simp)
            rw [e3, ec, eb]
            omega

/-- Claim C1 counterexample: already after the first successful load (zero
advance actions) two generation requests have been issued — the initial
foreground request plus the one prefetch — so the claimed total of N + 1
requests after N advances fails at N = 0 (the claim itself also asserts one
prefetch has been issued besides the initial request). -/
theorem prefetch_pipeline_counterexample :
    issuedCount (runPipeline 0).trace = 2 ∧
    bufferedCount (runPipeline 0).trace = 1 ∧ (2 : Nat) ≠ 0 + 1 := by
  decide

/-- Claim C1 (amended): after the first successful load exactly one prefetch
request has been issued; after N successful advance actions exactly N + 2
generation requests have been issued in total (one initial, one prefetch at
load, one per advance); and at no point of the execution are two prefetch
requests simultaneously pending (prefetches issued never exceed prefetches
consumed by more than one, in every prefix of the event history). -/
theorem prefetch_pipeline_spec (n : Nat) :
    bufferedCount (runPipeline 0).trace = 1 ∧
    issuedCount (runPipeline n).trace = n + 2 ∧
    ∀ k, bufferedCount ((runPipeline n).trace.take k) ≤
        consumeCount ((runPipeline n).trace.take k) + 1 ∧
      consumeCount ((runPipeline n).trace.take k) ≤
        bufferedCount ((runPipeline n).trace.take k) := by
  obtain ⟨_, _, _, hiss, htake⟩ := pipeline_invariant n
  exact ⟨rfl, hiss, fun k => ⟨(htake k).2, (htake k).1⟩⟩

end HiraganaDojo
